import Mathlib

/-!
Verification of `parseFormData` from `src/utils/parseFormData.ts`.

The TypeScript function walks a flat list of `(path, value)` string pairs and
builds a nested JavaScript value.  We embed JavaScript values shallowly:

* a string leaf becomes `Node.scalar`;
* both plain objects and arrays become `Node.obj isArr fields`, a list of
  string-keyed fields in insertion order.  This mirrors JavaScript, where an
  array is an object whose element `i` lives under the property key `toString i`
  and which answers `true` to `Array.isArray`; a sparse hole is simply an
  absent key.

`Object.fromEntries(formData.entries())` collapses duplicate keys (last value
wins, position of the first occurrence kept); we model it as `fromEntries`.
-/

namespace RFHook

inductive Node where
  | scalar (s : String)
  | obj (isArr : Bool) (fields : List (String × Node))

/-- Property lookup `o[k]` on a JavaScript object, `none` when absent. -/
def getKey : List (String × Node) → String → Option Node
  | [], _ => none
  | (k', v) :: rest, k => if k' == k then some v else getKey rest k

/-- Property write `o[k] = v`: an existing key is updated in place, a fresh
key is appended (JavaScript insertion order). -/
def setKey : List (String × Node) → String → Node → List (String × Node)
  | [], k, v => [(k, v)]
  | (k', v') :: rest, k, v =>
    if k' == k then (k, v) :: rest else (k', v') :: setKey rest k v

/-- `\w` of the source regex `/^(\w+)\[(\d+)\]$/`: ASCII letters, digits, `_`. -/
def isWordChar (c : Char) : Bool := c.isAlphanum || c == '_'

/-- `parseInt(indexStr, 10)` on a digit string. -/
def digitsToNat (cs : List Char) : Nat :=
  cs.foldl (fun n c => n * 10 + (c.toNat - '0'.toNat)) 0

/-- `key.match(ARRAY_KEY_REGEX)` for `ARRAY_KEY_REGEX = /^(\w+)\[(\d+)\]$/`:
the segment must be a nonempty word-character run, `[`, a nonempty digit run,
`]`, and nothing else.  Since `\w` excludes `[` and `\d` excludes `]`, the
decomposition at the first `[` is the only candidate match. -/
def matchArrayKey (s : String) : Option (String × Nat) :=
  let cs := s.data
  let name := cs.takeWhile (fun c => c != '[')
  match cs.dropWhile (fun c => c != '[') with
  | '[' :: afterBracket =>
    let digits := afterBracket.takeWhile Char.isDigit
    let tail := afterBracket.dropWhile Char.isDigit
    if !name.isEmpty && name.all isWordChar && !digits.isEmpty && tail == [']']
    then some (String.mk name, digitsToNat digits)
    else none
  | _ => none

/-- `path.split('.')` (single-character separator, JavaScript semantics:
never returns an empty list, keeps empty segments). -/
def splitOnDotAux : List Char → List Char → List (List Char)
  | [], acc => [acc.reverse]
  | c :: cs, acc =>
    if c == '.' then acc.reverse :: splitOnDotAux cs []
    else splitOnDotAux cs (c :: acc)

def splitPath (s : String) : List String :=
  (splitOnDotAux s.data []).map String.mk

/-- `current[arrayKey]` after `if (!Array.isArray(current[arrayKey]))
current[arrayKey] = []`: the existing array, else a fresh empty one. -/
def getArr (fields : List (String × Node)) (k : String) : List (String × Node) :=
  match getKey fields k with
  | some (.obj true af) => af
  | _ => []

/-- `array[index]` after `if (!array[index] || typeof array[index] !==
'object') array[index] = {}`: any object (its `isArray` nature kept) is
descended into, anything else is replaced by a fresh plain object. -/
def getElemObj (arr : List (String × Node)) (ik : String) : Bool × List (String × Node) :=
  match getKey arr ik with
  | some (.obj b ef) => (b, ef)
  | _ => (false, [])

/-- `current[key]` after `if (!current[key] || typeof current[key] !==
'object' || Array.isArray(current[key])) current[key] = {}`: only a plain
object survives, scalars, arrays and absence become a fresh object. -/
def getObjFields (fields : List (String × Node)) (k : String) : List (String × Node) :=
  match getKey fields k with
  | some (.obj false ef) => ef
  | _ => []

/-- The inner `for (let i = 0; i < keys.length; i++)` walk of one entry,
expressed as structural recursion over the remaining segments; the mutable
`current` pointer becomes the field list being rebuilt. -/
def applySteps : List (String × Node) → List String → String → List (String × Node)
  | fields, [], _ => fields
  | fields, key :: rest, value =>
    match matchArrayKey key with
    | some (arrayKey, index) =>
      let arr := getArr fields arrayKey
      let ik := Nat.repr index
      if rest.isEmpty then
        setKey fields arrayKey (.obj true (setKey arr ik (.scalar value)))
      else
        let be := getElemObj arr ik
        setKey fields arrayKey
          (.obj true (setKey arr ik (.obj be.1 (applySteps be.2 rest value))))
    | none =>
      if rest.isEmpty then
        setKey fields key (.scalar value)
      else
        setKey fields key (.obj false (applySteps (getObjFields fields key) rest value))

/-- Processing of one `(path, value)` pair of the outer loop. -/
def applyEntry (fields : List (String × Node)) (path value : String) :
    List (String × Node) :=
  applySteps fields (splitPath path) value

/-- One step of `Object.fromEntries`: duplicate key updated in place
(keeping its first-occurrence position), fresh key appended. -/
def setEntry : List (String × String) → String → String → List (String × String)
  | [], k, v => [(k, v)]
  | (k', v') :: rest, k, v =>
    if k' == k then (k, v) :: rest else (k', v') :: setEntry rest k v

/-- `Object.fromEntries(formData.entries())`. -/
def fromEntries (l : List (String × String)) : List (String × String) :=
  l.foldl (fun acc kv => setEntry acc kv.1 kv.2) []

/-- `parseFormData`: deduplicate the raw entries as `Object.fromEntries` does,
then fold every `(path, value)` pair into an initially empty result object. -/
def parseFormData (entries : List (String × String)) : List (String × Node) :=
  (fromEntries entries).foldl (fun res kv => applyEntry res kv.1 kv.2) []

/-- Lookup in the deduplicated entry object produced by `fromEntries`. -/
def lookupEntry : List (String × String) → String → Option String
  | [], _ => none
  | (k', v) :: rest, k => if k' == k then some v else lookupEntry rest k

/-- The object key a path segment writes to at the current level: the bracket
base for an array segment, the segment itself for a plain key. -/
def segBase (s : String) : String :=
  match matchArrayKey s with
  | some p => p.1
  | none => s

/-- `s` is a scalar leaf somewhere inside the node. -/
inductive HasLeaf : Node → String → Prop where
  | scalar (s : String) : HasLeaf (.scalar s) s
  | obj {b : Bool} {fs : List (String × Node)} {k : String} {n : Node}
      {s : String} : (k, n) ∈ fs → HasLeaf n s → HasLeaf (.obj b fs) s

/-- `s` is a scalar leaf somewhere inside the field list. -/
def FieldsLeaf (fs : List (String × Node)) (s : String) : Prop :=
  ∃ k n, (k, n) ∈ fs ∧ HasLeaf n s

/-- The nested structure a single all-plain-keys path denotes. -/
def nestedSingleton : List String → String → List (String × Node)
  | [], _ => []
  | [k], v => [(k, .scalar v)]
  | k :: rest, v => [(k, .obj false (nestedSingleton rest v))]

/-- Navigation through the result along a list of object keys (descending
through both plain objects and arrays-as-objects). -/
def getPath : List (String × Node) → List String → Option Node
  | _, [] => none
  | fs, [k] => getKey fs k
  | fs, k :: rest =>
    match getKey fs k with
    | some (.obj _ fs') => getPath fs' rest
    | _ => none

section Lemmas

theorem getKey_setKey_self (f : List (String × Node)) (k : String) (v : Node) :
    getKey (setKey f k v) k = some v := by
  induction f with
  | nil => simp [setKey, getKey]
  | cons p rest ih =>
    obtain ⟨k', v'⟩ := p
    by_cases h : k' == k
    · simp [setKey, getKey, h]
    · simp [setKey, getKey, h, ih]

theorem getKey_setKey_ne {k' k : String} (h : k' ≠ k)
    (f : List (String × Node)) (v : Node) :
    getKey (setKey f k' v) k = getKey f k := by
  induction f with
  | nil => simp [setKey, getKey, h]
  | cons p rest ih =>
    obtain ⟨k'', v''⟩ := p
    by_cases h2 : k'' == k'
    · have : k'' = k' := by simpa using h2
      subst this
      simp [setKey, getKey, h2, h]
    · by_cases h3 : k'' == k
      · simp [setKey, getKey, h2, h3]
      · simp [setKey, getKey, h2, h3, ih]

theorem lookupEntry_setEntry_self (l : List (String × String)) (k v : String) :
    lookupEntry (setEntry l k v) k = some v := by
  induction l with
  | nil => simp [setEntry, lookupEntry]
  | cons p rest ih =>
    obtain ⟨k', v'⟩ := p
    by_cases h : k' == k
    · simp [setEntry, lookupEntry, h]
    · simp [setEntry, lookupEntry, h, ih]

theorem applySteps_cons_none {key : String} (h : matchArrayKey key = none)
    (fields : List (String × Node)) (rs : List String) (v : String) :
    applySteps fields (key :: rs) v =
      if rs.isEmpty then setKey fields key (.scalar v)
      else setKey fields key
        (.obj false (applySteps (getObjFields fields key) rs v)) := by
  rw [applySteps, h]

theorem applySteps_cons_some {key ak : String} {idx : Nat}
    (h : matchArrayKey key = some (ak, idx))
    (fields : List (String × Node)) (rs : List String) (v : String) :
    applySteps fields (key :: rs) v =
      if rs.isEmpty then
        setKey fields ak
          (.obj true (setKey (getArr fields ak) (Nat.repr idx) (.scalar v)))
      else
        setKey fields ak (.obj true (setKey (getArr fields ak) (Nat.repr idx)
          (.obj (getElemObj (getArr fields ak) (Nat.repr idx)).1
            (applySteps (getElemObj (getArr fields ak) (Nat.repr idx)).2 rs v)))) := by
  rw [applySteps, h]

theorem mem_setKey {fs : List (String × Node)} {k : String} {v : Node}
    {p : String × Node} (h : p ∈ setKey fs k v) : p ∈ fs ∨ p = (k, v) := by
  induction fs with
  | nil => simpa [setKey] using h
  | cons q rest ih =>
    obtain ⟨k', v'⟩ := q
    by_cases h2 : k' == k
    · rw [setKey, if_pos h2] at h
      rcases List.mem_cons.mp h with h | h
      · exact Or.inr h
      · exact Or.inl (List.mem_cons_of_mem _ h)
    · rw [setKey, if_neg h2] at h
      rcases List.mem_cons.mp h with h | h
      · exact Or.inl (by simp [h])
      · rcases ih h with h | h
        · exact Or.inl (List.mem_cons_of_mem _ h)
        · exact Or.inr h

theorem getKey_mem {fs : List (String × Node)} {k : String} {n : Node}
    (h : getKey fs k = some n) : ∃ k', (k', n) ∈ fs := by
  induction fs with
  | nil => simp [getKey] at h
  | cons q rest ih =>
    obtain ⟨k', v'⟩ := q
    by_cases h2 : k' == k
    · rw [getKey, if_pos h2] at h
      obtain rfl : v' = n := by simpa using h
      exact ⟨k', List.mem_cons_self _ _⟩
    · rw [getKey, if_neg h2] at h
      obtain ⟨k'', hk⟩ := ih h
      exact ⟨k'', List.mem_cons_of_mem _ hk⟩

theorem fieldsLeaf_setKey {fs : List (String × Node)} {k : String} {v : Node}
    {s : String} (h : FieldsLeaf (setKey fs k v) s) :
    FieldsLeaf fs s ∨ HasLeaf v s := by
  obtain ⟨k', n, hm, hl⟩ := h
  rcases mem_setKey hm with hm | hm
  · exact Or.inl ⟨k', n, hm, hl⟩
  · rw [Prod.mk.injEq] at hm
    obtain ⟨rfl, rfl⟩ := hm
    exact Or.inr hl

theorem fieldsLeaf_getArr {fs : List (String × Node)} {k s : String}
    (h : FieldsLeaf (getArr fs k) s) : FieldsLeaf fs s := by
  unfold getArr at h
  cases hg : getKey fs k with
  | none =>
    rw [hg] at h
    obtain ⟨_, _, hm, _⟩ := h
    simp at hm
  | some n =>
    rw [hg] at h
    cases n with
    | scalar _ =>
      obtain ⟨_, _, hm, _⟩ := h
      simp at hm
    | obj b af =>
      cases b with
      | false =>
        obtain ⟨_, _, hm, _⟩ := h
        simp at hm
      | true =>
        obtain ⟨k', n', hm, hl⟩ := h
        obtain ⟨k'', hk⟩ := getKey_mem hg
        exact ⟨k'', _, hk, HasLeaf.obj hm hl⟩

theorem fieldsLeaf_getElemObj {arr : List (String × Node)} {ik s : String}
    (h : FieldsLeaf (getElemObj arr ik).2 s) : FieldsLeaf arr s := by
  unfold getElemObj at h
  cases hg : getKey arr ik with
  | none =>
    rw [hg] at h
    obtain ⟨_, _, hm, _⟩ := h
    simp at hm
  | some n =>
    rw [hg] at h
    cases n with
    | scalar _ =>
      obtain ⟨_, _, hm, _⟩ := h
      simp at hm
    | obj b ef =>
      obtain ⟨k', n', hm, hl⟩ := h
      obtain ⟨k'', hk⟩ := getKey_mem hg
      exact ⟨k'', _, hk, HasLeaf.obj hm hl⟩

theorem fieldsLeaf_getObjFields {fs : List (String × Node)} {k s : String}
    (h : FieldsLeaf (getObjFields fs k) s) : FieldsLeaf fs s := by
  unfold getObjFields at h
  cases hg : getKey fs k with
  | none =>
    rw [hg] at h
    obtain ⟨_, _, hm, _⟩ := h
    simp at hm
  | some n =>
    rw [hg] at h
    cases n with
    | scalar _ =>
      obtain ⟨_, _, hm, _⟩ := h
      simp at hm
    | obj b ef =>
      cases b with
      | true =>
        obtain ⟨_, _, hm, _⟩ := h
        simp at hm
      | false =>
        obtain ⟨k', n', hm, hl⟩ := h
        obtain ⟨k'', hk⟩ := getKey_mem hg
        exact ⟨k'', _, hk, HasLeaf.obj hm hl⟩

/-- Every scalar leaf of the result of one entry walk is either a leaf of
the starting fields or the value written by that entry. -/
theorem fieldsLeaf_applySteps {s : String} :
    ∀ (segs : List String) (fields : List (String × Node)) (v : String),
    FieldsLeaf (applySteps fields segs v) s → FieldsLeaf fields s ∨ s = v := by
  intro segs
  induction segs with
  | nil => intro fields v h; exact Or.inl h
  | cons seg rest ih =>
    intro fields v h
    cases hm : matchArrayKey seg with
    | some p =>
      obtain ⟨ak, idx⟩ := p
      rw [applySteps_cons_some hm] at h
      cases rest with
      | nil =>
        simp only [List.isEmpty_nil, if_true] at h
        rcases fieldsLeaf_setKey h with h | h
        · exact Or.inl h
        · cases h with
          | obj hmem hl =>
            rcases mem_setKey hmem with hmem | hmem
            · exact Or.inl (fieldsLeaf_getArr ⟨_, _, hmem, hl⟩)
            · rw [Prod.mk.injEq] at hmem
              obtain ⟨rfl, rfl⟩ := hmem
              cases hl
              exact Or.inr rfl
      | cons seg2 rest2 =>
        simp only [List.isEmpty_cons, if_false, Bool.false_eq_true] at h
        rcases fieldsLeaf_setKey h with h | h
        · exact Or.inl h
        · cases h with
          | obj hmem hl =>
            rcases mem_setKey hmem with hmem | hmem
            · exact Or.inl (fieldsLeaf_getArr ⟨_, _, hmem, hl⟩)
            · rw [Prod.mk.injEq] at hmem
              obtain ⟨rfl, rfl⟩ := hmem
              cases hl with
              | obj hmem2 hl2 =>
                rcases ih _ _ ⟨_, _, hmem2, hl2⟩ with h2 | h2
                · exact Or.inl (fieldsLeaf_getArr (fieldsLeaf_getElemObj h2))
                · exact Or.inr h2
    | none =>
      rw [applySteps_cons_none hm] at h
      cases rest with
      | nil =>
        simp only [List.isEmpty_nil, if_true] at h
        rcases fieldsLeaf_setKey h with h | h
        · exact Or.inl h
        · cases h
          exact Or.inr rfl
      | cons seg2 rest2 =>
        simp only [List.isEmpty_cons, if_false, Bool.false_eq_true] at h
        rcases fieldsLeaf_setKey h with h | h
        · exact Or.inl h
        · cases h with
          | obj hmem hl =>
            rcases ih _ _ ⟨_, _, hmem, hl⟩ with h2 | h2
            · exact Or.inl (fieldsLeaf_getObjFields h2)
            · exact Or.inr h2

theorem fieldsLeaf_foldl {s : String} :
    ∀ (l : List (String × String)) (fields : List (String × Node)),
    FieldsLeaf (l.foldl (fun res kv => applyEntry res kv.1 kv.2) fields) s →
    FieldsLeaf fields s ∨ ∃ p, (p, s) ∈ l := by
  intro l
  induction l with
  | nil => intro fields h; exact Or.inl h
  | cons kv rest ih =>
    intro fields h
    rw [List.foldl_cons] at h
    rcases ih _ h with h | h
    · unfold applyEntry at h
      rcases fieldsLeaf_applySteps _ _ _ h with h | h
      · exact Or.inl h
      · subst h
        exact Or.inr ⟨kv.1, by simp⟩
    · obtain ⟨p, hp⟩ := h
      exact Or.inr ⟨p, List.mem_cons_of_mem _ hp⟩

theorem mem_setEntry {l : List (String × String)} {k v : String}
    {p : String × String} (h : p ∈ setEntry l k v) : p ∈ l ∨ p = (k, v) := by
  induction l with
  | nil => simpa [setEntry] using h
  | cons q rest ih =>
    obtain ⟨k', v'⟩ := q
    by_cases h2 : k' == k
    · rw [setEntry, if_pos h2] at h
      rcases List.mem_cons.mp h with h | h
      · exact Or.inr h
      · exact Or.inl (List.mem_cons_of_mem _ h)
    · rw [setEntry, if_neg h2] at h
      rcases List.mem_cons.mp h with h | h
      · exact Or.inl (by simp [h])
      · rcases ih h with h | h
        · exact Or.inl (List.mem_cons_of_mem _ h)
        · exact Or.inr h

theorem mem_fromEntries_aux {p : String × String} :
    ∀ (l acc : List (String × String)),
    p ∈ l.foldl (fun acc kv => setEntry acc kv.1 kv.2) acc → p ∈ acc ∨ p ∈ l := by
  intro l
  induction l with
  | nil => intro acc h; exact Or.inl h
  | cons kv rest ih =>
    intro acc h
    rw [List.foldl_cons] at h
    rcases ih _ h with h | h
    · rcases mem_setEntry h with h | h
      · exact Or.inl h
      · exact Or.inr (by simp [h])
    · exact Or.inr (List.mem_cons_of_mem _ h)

/-- `Object.fromEntries` only ever stores pairs taken verbatim from its
input list. -/
theorem mem_fromEntries {entries : List (String × String)} {p : String × String}
    (h : p ∈ fromEntries entries) : p ∈ entries := by
  rcases mem_fromEntries_aux entries [] h with h | h
  · simp at h
  · exact h

end Lemmas

section Claims

/-- C1: a terminal plain-key write discards whatever was previously stored at
that key — for any intermediate result the entry `("a", v)` leaves the scalar
`v` at `"a"` — and in particular the entries `("a.b","1")` then `("a","2")`
produce the mapping sending `"a"` to the scalar `"2"`, the nested mapping
being discarded. -/
theorem typeConflict_lastEntryWins :
    (∀ (fields : List (String × Node)) (v : String),
      getKey (applyEntry fields "a" v) "a" = some (.scalar v)) ∧
    parseFormData [("a.b", "1"), ("a", "2")] = [("a", .scalar "2")] := by
  refine ⟨fun fields v => ?_, rfl⟩
  show getKey (setKey fields "a" (.scalar v)) "a" = some (.scalar v)
  exact getKey_setKey_self fields "a" (.scalar v)

/-- C2: the entries `("users[0].name","Bob")` and `("users[0].age","9")`
yield `{users: [{name: "Bob", age: "9"}]}`; more generally a non-terminal
array-access step finding an existing mapping at that index descends into it
and only extends its field list, keeping the existing keys. -/
theorem arrayStep_descends_preserving :
    (∀ (ef : List (String × Node)) (v : String),
      applyEntry [("users", .obj true [("0", .obj false ef)])] "users[0].age" v
        = [("users", .obj true [("0", .obj false (setKey ef "age" (.scalar v)))])]) ∧
    parseFormData [("users[0].name", "Bob"), ("users[0].age", "9")]
      = [("users", .obj true [("0", .obj false
          [("name", .scalar "Bob"), ("age", .scalar "9")])])] :=
  ⟨fun _ _ => rfl, rfl⟩

/-- C3: the entries `("items[0]","x")` and `("items[2]","y")` produce a
sequence under `"items"` with element `0 = "x"`, element `2 = "y"`, and no
element at index `1`: the gap is simply an absent slot. -/
theorem sparseArray_gaps :
    parseFormData [("items[0]", "x"), ("items[2]", "y")]
      = [("items", .obj true [("0", .scalar "x"), ("2", .scalar "y")])] ∧
    getArr (parseFormData [("items[0]", "x"), ("items[2]", "y")]) "items"
      = [("0", .scalar "x"), ("2", .scalar "y")] ∧
    getKey (getArr (parseFormData [("items[0]", "x"), ("items[2]", "y")])
      "items") "1" = none :=
  ⟨rfl, rfl, rfl⟩

/-- C4: a path all of whose segments are plain keys (none matches the
bracket pattern) places the raw value at the corresponding nested key path,
and in particular `("user.name","Ann")` yields `{user: {name: "Ann"}}`. -/
theorem plainDottedPath_nested :
    (∀ (ks : List String) (v : String), ks ≠ [] →
      (∀ k ∈ ks, matchArrayKey k = none) →
      applySteps [] ks v = nestedSingleton ks v) ∧
    parseFormData [("user.name", "Ann")]
      = [("user", .obj false [("name", .scalar "Ann")])] := by
  refine ⟨fun ks => ?_, rfl⟩
  induction ks with
  | nil => intro v h _; exact absurd rfl h
  | cons k rest ih =>
    intro v _ hall
    have hk : matchArrayKey k = none := hall k (by simp)
    cases rest with
    | nil =>
      unfold applySteps
      simp [hk, nestedSingleton, setKey]
    | cons k2 rest2 =>
      unfold applySteps
      simp only [hk]
      have hrec : applySteps (getObjFields [] k) (k2 :: rest2) v
          = nestedSingleton (k2 :: rest2) v := by
        have hemp : getObjFields [] k = [] := rfl
        rw [hemp]
        exact ih v (by simp) (fun k' hk' => hall k' (List.mem_cons_of_mem _ hk'))
      simp [hrec, nestedSingleton, setKey]

/-- Witness for C4: the hypotheses hold at the segments of `"user.name"`,
and the theorem applied there computes the nested singleton mapping. -/
theorem plainDottedPath_nested_witness :
    ((["user", "name"] : List String) ≠ [] ∧
      ∀ k ∈ (["user", "name"] : List String), matchArrayKey k = none) ∧
    applySteps [] ["user", "name"] "Ann" = nestedSingleton ["user", "name"] "Ann" :=
  ⟨⟨by decide, by decide⟩,
    plainDottedPath_nested.1 ["user", "name"] "Ann" (by decide) (by decide)⟩

/-- C5: the assembler is a total function (this embedding is a Lean `def`
that never fails), and a segment failing the single-level `name[index]`
pattern is treated as a literal plain key: `"items[x]"` (non-numeric index)
and `"a[0][1]"` (double index) do not match the pattern, and the
corresponding entries store their value under the literal segment string
with no array created. -/
theorem malformedBracket_plainKeyFallback :
    (∀ (fields : List (String × Node)) (k v : String),
      matchArrayKey k = none →
      applySteps fields [k] v = setKey fields k (.scalar v)) ∧
    matchArrayKey "items[x]" = none ∧ matchArrayKey "a[0][1]" = none ∧
    parseFormData [("items[x]", "v")] = [("items[x]", .scalar "v")] ∧
    parseFormData [("a[0][1]", "v")] = [("a[0][1]", .scalar "v")] := by
  refine ⟨fun fields k v h => ?_, by decide, by decide, rfl, rfl⟩
  unfold applySteps
  simp [h]

/-- Witness for C5: the hypothesis holds at the malformed segment
`"items[x]"`, and the theorem applied there performs the plain-key write. -/
theorem malformedBracket_plainKeyFallback_witness :
    matchArrayKey "items[x]" = none ∧
    applySteps [] ["items[x]"] "v" = setKey [] "items[x]" (.scalar "v") :=
  ⟨by decide, malformedBracket_plainKeyFallback.1 [] "items[x]" "v" (by decide)⟩

/-- C6: entries are order-significant and a later entry with the identical
full path wins: the `Object.fromEntries` collapse keeps the last value for a
duplicated name, and `("a","1")` followed by `("a","2")` produces the scalar
`"2"` at `"a"`. -/
theorem duplicatePath_overwrite :
    (∀ (es : List (String × String)) (p v : String),
      lookupEntry (fromEntries (es ++ [(p, v)])) p = some v) ∧
    parseFormData [("a", "1"), ("a", "2")] = [("a", .scalar "2")] := by
  refine ⟨fun es p v => ?_, rfl⟩
  have h : fromEntries (es ++ [(p, v)]) = setEntry (fromEntries es) p v := by
    simp [fromEntries, List.foldl_append]
  rw [h]
  exact lookupEntry_setEntry_self _ p v

/-- C7: every scalar leaf of the produced structure is a raw submitted
value: if `s` occurs as a leaf of `parseFormData entries` then some input
pair `(p, s)` is literally in `entries` — values are stored as the `scalar`
constructor, never coerced. -/
theorem leaves_are_submitted_values :
    ∀ (entries : List (String × String)) (s : String),
    FieldsLeaf (parseFormData entries) s → ∃ p, (p, s) ∈ entries := by
  intro entries s h
  unfold parseFormData at h
  rcases fieldsLeaf_foldl _ _ h with h | h
  · obtain ⟨_, _, hm, _⟩ := h
    simp at hm
  · obtain ⟨p, hp⟩ := h
    exact ⟨p, mem_fromEntries hp⟩

/-- Witness for C7: the result of the single entry `("a","1")` has the leaf
`"1"`, and the theorem traces it back to an input pair. -/
theorem leaves_are_submitted_values_witness :
    FieldsLeaf (parseFormData [("a", "1")]) "1" ∧
    ∃ p, (p, "1") ∈ [("a", "1")] := by
  have h : FieldsLeaf (parseFormData [("a", "1")]) "1" :=
    ⟨"a", .scalar "1", by
      show ("a", Node.scalar "1") ∈ [("a", Node.scalar "1")]
      simp, HasLeaf.scalar "1"⟩
  exact ⟨h, leaves_are_submitted_values [("a", "1")] "1" h⟩

/-- C8: the assembler is a pure, deterministic function of its input
sequence — two runs on the same entries coincide — and every run is,
definitionally, a fold that starts from the empty mapping `[]`, so no state
survives between calls. -/
theorem parse_deterministic_fresh :
    ∀ (es : List (String × String)),
    parseFormData es = parseFormData es ∧
    parseFormData es
      = (fromEntries es).foldl (fun res kv => applyEntry res kv.1 kv.2) [] :=
  fun _ => ⟨rfl, rfl⟩

/-- C9 counterexample: processing one entry can destroy a subtree at a key
that is not a step of its path.  Before processing, `["a", "x"]` holds the
scalar `"1"`; the entry `("a[0]", "v")` has path steps `"a"` and index key
`"0"` — `"x"` is not among them — yet afterwards nothing is stored at
`["a", "x"]`: the array step replaced the whole mapping at `"a"`. -/
theorem frame_counterexample :
    getPath [("a", .obj false [("x", .scalar "1")])] ["a", "x"]
      = some (.scalar "1") ∧
    getPath (applyEntry [("a", .obj false [("x", .scalar "1")])] "a[0]" "v")
      ["a", "x"] = none ∧
    segBase "a[0]" = "a" ∧ ("x" : String) ≠ "a" ∧ ("x" : String) ≠ Nat.repr 0 :=
  ⟨rfl, rfl, by decide, by decide, by decide⟩

/-- C9 (amended): processing one entry modifies only the base key of its
first step at each level it walks through: every other top-level key keeps
its previous value, and when the walk descends into an existing mapping
without replacing it, every key of that mapping other than the next step's
base key likewise keeps its previous value.  (Subtrees below a node the
entry replaces by type coercion are discarded with it, as the
counterexample shows.) -/
theorem frame_amended :
    (∀ (fields : List (String × Node)) (seg : String) (rest : List String)
      (v k : String), segBase seg ≠ k →
      getKey (applySteps fields (seg :: rest) v) k = getKey fields k) ∧
    (∀ (fields ef : List (String × Node)) (key seg2 : String)
      (rest : List String) (v k : String),
      matchArrayKey key = none → getKey fields key = some (.obj false ef) →
      segBase seg2 ≠ k →
      getObjFields (applySteps fields (key :: seg2 :: rest) v) key
          = applySteps ef (seg2 :: rest) v ∧
        getKey (applySteps ef (seg2 :: rest) v) k = getKey ef k) := by
  have hframe : ∀ (fields : List (String × Node)) (seg : String)
      (rest : List String) (v k : String), segBase seg ≠ k →
      getKey (applySteps fields (seg :: rest) v) k = getKey fields k := by
    intro fields seg rest v k h
    unfold segBase at h
    cases hm : matchArrayKey seg with
    | some p =>
      obtain ⟨ak, idx⟩ := p
      rw [hm] at h
      rw [applySteps_cons_some hm]
      split <;> exact getKey_setKey_ne h _ _
    | none =>
      rw [hm] at h
      rw [applySteps_cons_none hm]
      split <;> exact getKey_setKey_ne h _ _
  refine ⟨hframe, ?_⟩
  intro fields ef key seg2 rest v k h1 h2 h3
  have hef : getObjFields fields key = ef := by
    unfold getObjFields
    rw [h2]
  have hres : applySteps fields (key :: seg2 :: rest) v
      = setKey fields key (.obj false (applySteps ef (seg2 :: rest) v)) := by
    rw [applySteps_cons_none h1, hef]
    rfl
  refine ⟨?_, hframe ef seg2 rest v k h3⟩
  rw [hres]
  unfold getObjFields
  rw [getKey_setKey_self]

/-- Witness for the amended C9: a concrete off-path top-level key survives
the entry `a.b`, and a concrete off-path key inside a mapping descended
into without replacement survives the entry `u.w`. -/
theorem frame_amended_witness :
    (segBase "a" ≠ "x" ∧
      getKey (applySteps [("x", .scalar "0")] ["a", "b"] "1") "x"
        = getKey [("x", Node.scalar "0")] "x") ∧
    (matchArrayKey "u" = none ∧
      getKey [("u", Node.obj false [("z", .scalar "9")])] "u"
        = some (.obj false [("z", .scalar "9")]) ∧
      segBase "w" ≠ "z" ∧
      getObjFields (applySteps [("u", .obj false [("z", .scalar "9")])]
          ["u", "w"] "2") "u" = applySteps [("z", .scalar "9")] ["w"] "2" ∧
      getKey (applySteps [("z", .scalar "9")] ["w"] "2") "z"
        = getKey [("z", Node.scalar "9")] "z") :=
  ⟨⟨by decide,
      frame_amended.1 [("x", .scalar "0")] "a" ["b"] "1" "x" (by decide)⟩,
    by decide, rfl, by decide,
    (frame_amended.2 [("u", .obj false [("z", .scalar "9")])]
      [("z", .scalar "9")] "u" "w" [] "2" "z" (by decide) rfl (by decide)).1,
    (frame_amended.2 [("u", .obj false [("z", .scalar "9")])]
      [("z", .scalar "9")] "u" "w" [] "2" "z" (by decide) rfl (by decide)).2⟩

/-- C10: the empty input sequence produces the empty mapping. -/
theorem empty_input_empty_mapping : parseFormData [] = [] := rfl

end Claims

end RFHook
